import Mathlib

/-!
Shallow embedding of the `mysecond` novelty-search engine
(`src/mysecond/{cache,eval_cache,models,score,search,habits}.py`) and proofs
of the specification's testable properties over that embedding.

Conventions used throughout:

* chess moves are represented by their UCI strings; FENs by plain strings;
* a side (`chess.Color`) is a `Bool` (`true` = White, as in python-chess);
* machine floats from the source are modelled as exact numbers (`Int`/`ℚ`
  for the search and habit pipelines, `ℝ` for the scorer, which uses
  `exp`/`sqrt`);
* external collaborators (SQLite, the chess-rules library, the engine
  process, the HTTP explorer) are injected as explicit stores and oracle
  functions, mirroring how the python code receives them as objects.
-/

namespace MySecond

/-! ## Data model (`models.py`) -/

/-- Per-move statistics returned by the opening explorer (`MoveStats`). -/
structure MoveStats where
  uci : String
  white : Nat
  draws : Nat
  black : Nat
  averageRating : Nat := 0
  deriving Repr, DecidableEq

/-- `MoveStats.total`: `white + draws + black`. -/
def MoveStats.total (m : MoveStats) : Nat := m.white + m.draws + m.black

/-- Full opening-explorer response for a position (`ExplorerData`). -/
structure ExplorerData where
  white : Nat
  draws : Nat
  black : Nat
  moves : List MoveStats
  deriving Repr, DecidableEq

/-- `ExplorerData.total`: aggregate game count. -/
def ExplorerData.total (d : ExplorerData) : Nat := d.white + d.draws + d.black

/-- `ExplorerData.games_for_move`: games for a UCI move, `0` when absent. -/
def ExplorerData.gamesForMove (d : ExplorerData) (uci : String) : Nat :=
  match d.moves.find? (fun m => m.uci == uci) with
  | some m => m.total
  | none => 0

/-- Stable insertion sort; models python's stable `sorted` (any two stable
sorts with the same total preorder agree, so insertion sort is a faithful
model of timsort).  `le a b` means "`a` may stay in front of `b`". -/
def stableInsert (le : α → α → Bool) (x : α) : List α → List α
  | [] => [x]
  | y :: ys => if le x y then x :: y :: ys else y :: stableInsert le x ys

/-- Stable sort by `le` (see `stableInsert`). -/
def stableSort (le : α → α → Bool) : List α → List α
  | [] => []
  | x :: xs => stableInsert le x (stableSort le xs)

/-- `ExplorerData.top_moves`: the `n` most-played moves, most games first
(python: `sorted(self.moves, key=lambda m: -m.total)[:n]`). -/
def ExplorerData.topMoves (d : ExplorerData) (n : Nat) : List MoveStats :=
  (stableSort (fun a b => b.total ≤ a.total) d.moves).take n

/-- Engine evaluation at a single depth (`EngineEval`). -/
structure EngineEval where
  depth : Nat
  cpWhite : Option Int
  mateWhite : Option Int
  deriving Repr, DecidableEq

/-- `EngineEval.cp_pov`: centipawns from *side*'s perspective. -/
def EngineEval.cpPov (ev : EngineEval) (side : Bool) : Int :=
  match ev.cpWhite with
  | none =>
    let mate := ev.mateWhite.getD 0
    let whiteVal : Int := if mate > 0 then 10000 else -10000
    if side then whiteVal else -whiteVal
  | some cp => if side then cp else -cp

/-- A discovered novelty (`NoveltyLine`).  The python `dict[int, EngineEval]`
is modelled as an insertion-ordered association list, matching python-dict
iteration order. -/
structure NoveltyLine where
  bookMoves : List String
  noveltyMove : String
  noveltyPly : Nat
  evals : List (Nat × EngineEval)
  preNoveltyGames : Nat
  postNoveltyGames : Nat
  continuations : List String
  deriving Repr, DecidableEq

/-! ## Evaluation cache (`eval_cache.py`)

The SQLite table `eval_cache (fen PRIMARY KEY, depth, moves_json, ts)` is
modelled as a function from FEN to an optional row.  The JSON serialisation
of the move list (`json.dumps`/`json.loads`, an external stdlib collaborator
whose round-trip is exact on these payloads) is identified, so a row stores
the structured move list; the corrupt-payload path of `EvalCache.get` is
modelled separately below for the error-handling claim. -/

/-- One element of `moves_json`: a `{"uci": str, "white_cp": int}` object. -/
structure EvalMove where
  uci : String
  whiteCp : Int
  deriving Repr, DecidableEq

/-- One row of the `eval_cache` table. -/
structure EvalRow where
  depth : Nat
  moves : List EvalMove
  ts : Nat
  deriving Repr, DecidableEq

/-- The `eval_cache` table: FEN → optional row. -/
def EvalStore : Type := String → Option EvalRow

/-- `MAX_MULTIPV`: maximum number of lines stored per position. -/
def MAX_MULTIPV : Nat := 20

namespace EvalCache

/-- `EvalCache.put`: store a move list.  An empty list returns immediately;
otherwise the SQLite upsert keeps the incoming `(depth, moves)` pair iff
`excluded.depth >= eval_cache.depth`, and always refreshes `ts`. -/
def put (s : EvalStore) (fen : String) (depth : Nat) (moves : List EvalMove)
    (ts : Nat) : EvalStore :=
  if moves = [] then s
  else
    let movesJson := moves.take MAX_MULTIPV
    fun f =>
      if f = fen then
        match s fen with
        | none => some ⟨depth, movesJson, ts⟩
        | some r =>
          some ⟨if depth ≥ r.depth then depth else r.depth,
                if depth ≥ r.depth then movesJson else r.moves,
                ts⟩
      else s f

/-- `EvalCache.get`: return the top `multipv` moves if the stored result was
computed at depth ≥ the requested depth and holds enough lines. -/
def get (s : EvalStore) (fen : String) (depth : Nat) (multipv : Nat) :
    Option (List EvalMove) :=
  match s fen with
  | none => none
  | some r =>
    if r.depth < depth then none
    else if r.moves.length < multipv then none
    else some (r.moves.take multipv)

end EvalCache

/-! ## Corrupt-payload behaviour of the two `get`s (`cache.py` / `eval_cache.py`)

Here the stored payload is kept raw (a string) and JSON parsing
(`json.loads`) is injected as a function `parse : String → Option π`;
`parse s = none` models a raised `json.JSONDecodeError`.  A python function
that lets that exception escape is modelled in `Except`, with `.error`
standing for the propagated exception. -/

/-- A raw row of the `eval_cache` table, `moves_json` unparsed. -/
structure RawEvalRow where
  depth : Nat
  movesJson : String
  ts : Nat
  deriving Repr, DecidableEq

/-- The position cache table `explorer_cache`, keyed by `(fen, backend)`,
payload unparsed. -/
def RawCacheStore : Type := String → String → Option String

/-- `Cache.get` (`cache.py`): `return json.loads(row[0]) if row else None`.
There is no `try`/`except` around `json.loads`, so an unparseable payload
propagates the `JSONDecodeError` (modelled as `Except.error ()`). -/
def Cache.get (parse : String → Option π) (s : RawCacheStore)
    (fen backend : String) : Except Unit (Option π) :=
  match s fen backend with
  | none => Except.ok none
  | some payload =>
    match parse payload with
    | some data => Except.ok (some data)
    | none => Except.error ()

/-- `EvalCache.get` on a raw store: the `json.loads(moves_json)` call is
wrapped in `try ... except (json.JSONDecodeError, TypeError): return None`,
so an unparseable payload is a miss. -/
def EvalCache.getRaw (parse : String → Option (List EvalMove))
    (s : String → Option RawEvalRow) (fen : String) (depth : Nat)
    (multipv : Nat) : Option (List EvalMove) :=
  match s fen with
  | none => none
  | some r =>
    if r.depth < depth then none
    else
      match parse r.movesJson with
      | none => none
      | some moves =>
        if moves.length < multipv then none
        else some (moves.take multipv)

/-! ## Write sequences against the evaluation cache (claim C1 infrastructure) -/

/-- One `EvalCache.put` call's arguments (for a fixed position key). -/
structure EvalWrite where
  depth : Nat
  moves : List EvalMove
  ts : Nat
  deriving Repr, DecidableEq

/-- Apply a sequence of `EvalCache.put` calls to one key, in order. -/
def applyWrites (s : EvalStore) (fen : String) (ws : List EvalWrite) : EvalStore :=
  ws.foldl (fun st w => EvalCache.put st fen w.depth w.moves w.ts) s

/-- The greatest depth appearing in a write sequence. -/
def maxWriteDepth (ws : List EvalWrite) : Nat :=
  ws.foldl (fun a w => max a w.depth) 0

/-- The last write attaining the greatest depth of the sequence (ties between
equal depths are broken towards the later write, since `put` replaces on
`depth ≥ stored depth`). -/
def lastDeepestWrite (ws : List EvalWrite) : Option EvalWrite :=
  ws.reverse.find? (fun w => w.depth == maxWriteDepth ws)

/-! ## Novelty scoring (`score.py`)

The python floats are modelled as real numbers; `statistics.mean` and
`statistics.stdev` (python stdlib collaborators) are the arithmetic mean and
the sample standard deviation. -/

/-- `_STABILITY_WEIGHT`: penalty per cp of stddev. -/
noncomputable def STABILITY_WEIGHT : ℝ := 8

/-- `_DEPTH_WEIGHT`: max bonus for optimal novelty depth. -/
noncomputable def DEPTH_WEIGHT : ℝ := 30

/-- `_DEPTH_PEAK`: ideal novelty ply. -/
noncomputable def DEPTH_PEAK : ℝ := 14

/-- `_DEPTH_SIGMA`: width of the depth-bonus bell curve. -/
noncomputable def DEPTH_SIGMA : ℝ := 8

/-- The perspective-corrected centipawn values of the depths that carry a
numeric score (`[ev.cp_pov(side) for ev in nov.evals.values() if
ev.cp_white is not None]`). -/
def cpValuesOf (evals : List (Nat × EngineEval)) (side : Bool) : List Int :=
  evals.filterMap (fun p =>
    match p.2.cpWhite with
    | some _ => some (p.2.cpPov side)
    | none => none)

/-- `statistics.mean`. -/
noncomputable def statisticsMean (l : List Int) : ℝ :=
  (l.map (fun x => (x : ℝ))).sum / l.length

/-- `statistics.stdev`: sample standard deviation. -/
noncomputable def statisticsStdev (l : List Int) : ℝ :=
  Real.sqrt ((l.map (fun x => ((x : ℝ) - statisticsMean l) ^ 2)).sum
    / ((l.length : ℝ) - 1))

/-- `_has_mate_for`: scan the evals in order and, at the FIRST one carrying a
mate score, report whether that mate favours *side*; `false` when no eval
carries a mate. -/
def hasMateFor (evals : List (Nat × EngineEval)) (side : Bool) : Bool :=
  match evals with
  | [] => false
  | (_, ev) :: rest =>
    match ev.mateWhite with
    | some m => decide (m > 0) == side
    | none => hasMateFor rest side

/-- The first eval (in depth-insertion order) carrying a mate score, if any
(specification-side helper, not in the source). -/
def firstMateEval (evals : List (Nat × EngineEval)) : Option EngineEval :=
  (evals.find? (fun p => p.2.mateWhite.isSome)).map (fun p => p.2)

/-- The Gaussian depth bonus `exp(-((ply - _DEPTH_PEAK)^2) / (2 *
_DEPTH_SIGMA^2))`. -/
noncomputable def depthBonus (ply : Nat) : ℝ :=
  Real.exp (-(((ply : ℝ) - DEPTH_PEAK) ^ 2) / (2 * DEPTH_SIGMA ^ 2))

/-- A novelty candidate annotated with scoring data (`ScoredNovelty`). -/
structure ScoredNovelty where
  novelty : NoveltyLine
  evalCp : ℝ
  stability : ℝ
  score : ℝ

/-- `score_novelty`: composite score for a novelty candidate. -/
noncomputable def scoreNovelty (nov : NoveltyLine) (side : Bool) : ScoredNovelty :=
  let cpValues := cpValuesOf nov.evals side
  let evalCp : ℝ :=
    if cpValues ≠ [] then statisticsMean cpValues
    else if hasMateFor nov.evals side then 10000 else -10000
  let stability : ℝ :=
    if cpValues ≠ [] then
      (if 1 < cpValues.length then statisticsStdev cpValues else 0)
    else 0
  { novelty := nov
    evalCp := evalCp
    stability := stability
    score := evalCp - STABILITY_WEIGHT * stability
      + DEPTH_WEIGHT * depthBonus nov.noveltyPly }

/-! ## Theory walk (`search.py`, phase 1)

The chess-rules library (python-chess) and the external collaborators the
walk blocks on (engine, explorer, per-player explorer) are injected as a
record of oracle functions over an abstract board type `B`; moves are UCI
strings.  Recursion is driven by a fuel parameter: the source's own
`max_book_plies` guard bounds the real recursion depth (each call grows
`book_moves` by one), so any fuel ≥ `max_book_plies` makes the fuel guard
unreachable.  The state carries a ghost `bodyLog` recording, in order, the
canonical position strings whose post-guard body executed. -/

/-- One entry of the result of `Engine.analyse_multipv`: a principal
variation and its score, readable from either side's perspective
(`info["score"].pov(side).score(mate_score=10_000) or 0`). -/
structure EngineInfo where
  pv : List String
  score : Bool → Int

/-- The chess-rules collaborator (board construction, move application, SAN
rendering, legality). -/
structure ChessRules (B : Type) where
  fen : B → String
  turn : B → Bool
  san : B → String → String
  push : B → String → B
  legal : B → String → Bool

/-- `SearchConfig`. -/
structure SearchConfig where
  fen : String
  side : Bool
  maxBookPlies : Nat
  minBookGames : Nat
  noveltyThreshold : Nat
  engineCandidates : Nat
  opponentResponses : Nat
  depths : List Nat
  timeMs : Nat
  minEvalCp : Int
  continuationPlies : Nat
  maxWorkers : Nat
  maxPositions : Nat
  maxCandidates : Nat
  playerName : Option String
  opponentName : Option String
  minPlayerGames : Nat
  minOpponentGames : Nat

/-- `_PendingNovelty`: a candidate staged between walk and deep evaluation. -/
structure PendingNovelty (B : Type) where
  board : B
  bookMoves : List String
  bookMovesSan : List String
  move : String
  preNoveltyGames : Nat
  postNoveltyGames : Nat
  quickEvalCp : Int

/-- The walk's threaded mutable state (`pending`, `visited`,
`positions_visited`), plus the ghost `bodyLog`. -/
structure WalkState (B : Type) where
  pending : List (PendingNovelty B)
  visited : List String
  positionsVisited : Nat
  bodyLog : List String

/-- The walk's external collaborators. -/
structure WalkOracles (B : Type) where
  engine : B → List EngineInfo
  explorer : String → Option ExplorerData
  player : Option (String → Option ExplorerData)
  opponent : Option (String → Option ExplorerData)

/-- `_player_plays_move`: `True` when no player filter data, `True` when the
player's total games at the position are below `min_games` (permissive
fallback), else whether the player played this exact move ≥ `min_games`
times. -/
def playerPlaysMove (uci : String) (playerData : Option ExplorerData)
    (minGames : Nat) : Bool :=
  match playerData with
  | none => true
  | some pd =>
    if pd.total < minGames then true
    else decide (pd.gamesForMove uci ≥ minGames)

/-- `_opponent_moves_with_source`: the opponent's own top moves when their
data is present, sufficient and non-empty; otherwise the masters database's
top moves. -/
def opponentMovesWithSource (fen : String) (mastersData : ExplorerData)
    (opponentExplorer : Option (String → Option ExplorerData))
    (n minGames : Nat) : List MoveStats × String :=
  match opponentExplorer with
  | some g =>
    match g fen with
    | some oppData =>
      if oppData.total ≥ minGames then
        let top := oppData.topMoves n
        if top ≠ [] then (top, "opponent")
        else (mastersData.topMoves n, "masters DB")
      else (mastersData.topMoves n, "masters DB")
    | none => (mastersData.topMoves n, "masters DB")
  | none => (mastersData.topMoves n, "masters DB")

/-- The per-candidate body of the walk's OUR-TURN loop: skip an empty pv;
enqueue a pending novelty when the move's post-move game count is within
`novelty_threshold` and its quick eval meets `min_eval_cp`; otherwise (in
book) recurse iff `_player_plays_move` allows it.  `recur` is the recursive
`_walk` call. -/
def ourTurnStep {B : Type} (rules : ChessRules B) (cfg : SearchConfig)
    (board : B) (data : ExplorerData) (playerData : Option ExplorerData)
    (bookMoves bookMovesSan : List String)
    (recur : B → List String → List String → WalkState B → WalkState B)
    (st : WalkState B) (info : EngineInfo) : WalkState B :=
  match info.pv with
  | [] => st
  | move :: _ =>
    let quickCp := info.score cfg.side
    let postGames := data.gamesForMove move
    if postGames ≤ cfg.noveltyThreshold then
      if quickCp ≥ cfg.minEvalCp then
        { st with pending := st.pending ++
            [⟨board, bookMoves, bookMovesSan, move, data.total, postGames,
              quickCp⟩] }
      else st
    else
      if playerPlaysMove move playerData cfg.minPlayerGames then
        recur (rules.push board move) (bookMoves ++ [move])
          (bookMovesSan ++ [rules.san board move]) st
      else st

/-- `_walk`: recursive theory-tree traversal collecting novelty candidates.
Guard order as in the source: visited check, position budget, book-ply
ceiling; then mark visited, count the position, consult the explorer, prune
out-of-book positions, and branch on whose turn it is. -/
def walk {B : Type} (rules : ChessRules B) (cfg : SearchConfig)
    (orc : WalkOracles B) :
    Nat → B → List String → List String → WalkState B → WalkState B
  | 0, _, _, _, st => st
  | Nat.succ fuel, board, bookMoves, bookMovesSan, st =>
    let fen := rules.fen board
    if fen ∈ st.visited then st
    else if st.positionsVisited ≥ cfg.maxPositions then st
    else if bookMoves.length ≥ cfg.maxBookPlies then st
    else
      let st1 : WalkState B :=
        { st with visited := fen :: st.visited
                  positionsVisited := st.positionsVisited + 1
                  bodyLog := st.bodyLog ++ [fen] }
      match orc.explorer fen with
      | none => st1
      | some data =>
        if data.total < cfg.minBookGames then st1
        else if rules.turn board = cfg.side then
          let infos := orc.engine board
          let playerData :=
            match orc.player with
            | none => none
            | some g => g fen
          infos.foldl
            (ourTurnStep rules cfg board data playerData bookMoves bookMovesSan
              (fun b bm bms s => walk rules cfg orc fuel b bm bms s)) st1
        else
          let moveList := (opponentMovesWithSource fen data orc.opponent
            cfg.opponentResponses cfg.minOpponentGames).1
          moveList.foldl
            (fun s ms =>
              if rules.legal board ms.uci then
                walk rules cfg orc fuel (rules.push board ms.uci)
                  (bookMoves ++ [ms.uci])
                  (bookMovesSan ++ [rules.san board ms.uci]) s
              else s) st1

/-- Phase 1 of `find_novelties`: run the walk from the root with empty
`pending`, `visited` and counters. -/
def runWalk {B : Type} (rules : ChessRules B) (cfg : SearchConfig)
    (orc : WalkOracles B) (fuel : Nat) (board : B) : WalkState B :=
  walk rules cfg orc fuel board [] [] ⟨[], [], 0, []⟩

/-- All staged candidates respect the novelty threshold. -/
def pendingBelowThreshold {B : Type} (cfg : SearchConfig)
    (st : WalkState B) : Prop :=
  ∀ p ∈ st.pending, p.postNoveltyGames ≤ cfg.noveltyThreshold

/-- The de-duplication ghost invariant: the body executed at most once per
canonical position string, and every position whose body executed is in the
visited set. -/
def dedupInv {B : Type} (st : WalkState B) : Prop :=
  st.bodyLog.Nodup ∧ ∀ f ∈ st.bodyLog, f ∈ st.visited

/-! ## Deep evaluation (`search.py`, phase 2)

`_evaluate_candidate` is modelled per candidate; the worker's dedicated
engine is an oracle giving, at each depth of the post-move position, the
White-perspective centipawn score (`score.white().score(mate_score=10_000)`)
and mate count (`score.white().mate()`), and the principal variation of
`analyse_single`. -/

/-- Insert-or-replace into an insertion-ordered association list; models
assignment into a python dict. -/
def dictUpsert [BEq κ] (l : List (κ × α)) (k : κ) (v : α) : List (κ × α) :=
  if l.any (fun p => p.1 == k) then
    l.map (fun p => if p.1 == k then (k, v) else p)
  else l ++ [(k, v)]

/-- Lookup in an association list (python `d[k]` / `k in d`). -/
def dictLookup [BEq κ] (l : List (κ × α)) (k : κ) : Option α :=
  (l.find? (fun p => p.1 == k)).map (fun p => p.2)

/-- python `min(l)` on a non-empty list (`min(config.depths)`). -/
def listMin (l : List Nat) : Nat :=
  match l with
  | [] => 0
  | x :: xs => xs.foldl min x

/-- The `evals` dict of `_evaluate_candidate`: iterate the depths in sorted
order and assign `evals[depth] = EngineEval(depth, cp_white, mate_white)`. -/
def buildEvals (depths : List Nat) (cpW : Nat → Option Int)
    (mateW : Nat → Option Int) : List (Nat × EngineEval) :=
  (stableSort (fun a b => a ≤ b) depths).foldl
    (fun acc d => dictUpsert acc d ⟨d, cpW d, mateW d⟩) []

/-- The perspective-corrected mean evaluation of `_evaluate_candidate`:
mean over the depths with a numeric centipawn value; with none, ±10000
depending on `_any_mate_for` (the same first-mate scan as the scorer's
`_has_mate_for`). -/
def deepMeanCp (evals : List (Nat × EngineEval)) (side : Bool) : ℚ :=
  let cpValues := cpValuesOf evals side
  if cpValues ≠ [] then
    ((cpValues.map (fun x => (x : ℚ))).sum) / cpValues.length
  else if hasMateFor evals side then 10000 else -10000

/-- `_evaluate_candidate`: play the novelty, evaluate at each configured
depth, discard when the perspective-corrected mean is below `min_eval_cp`,
otherwise emit the `NoveltyLine` with the truncated principal variation as
continuations. -/
def evaluateCandidate {B : Type} (rules : ChessRules B) (cfg : SearchConfig)
    (cpW : B → Nat → Option Int) (mateW : B → Nat → Option Int)
    (pvOf : B → Nat → List String) (p : PendingNovelty B) :
    Option NoveltyLine :=
  let postBoard := rules.push p.board p.move
  let evals := buildEvals cfg.depths (cpW postBoard) (mateW postBoard)
  let meanCp := deepMeanCp evals cfg.side
  if meanCp < (cfg.minEvalCp : ℚ) then none
  else
    some { bookMoves := p.bookMoves
           noveltyMove := p.move
           noveltyPly := p.bookMoves.length
           evals := evals
           preNoveltyGames := p.preNoveltyGames
           postNoveltyGames := p.postNoveltyGames
           continuations :=
             (pvOf postBoard (listMin cfg.depths)).take cfg.continuationPlies }

/-! ## Habit detection (`habits.py`)

`analyze_habits` after the cache scan: the scan result (already the
`(fen, payload)` list; metadata keys still present) is an input, the chess
rules and the engine are oracles, and the evaluation cache is threaded
through the per-position loop.  `chess.Move.from_uci` failures and
illegality are both modelled by the legality oracle (either way the move is
skipped). -/

/-- `HabitInaccuracy`. -/
structure HabitInaccuracy where
  fen : String
  totalGames : Nat
  playerMoveUci : String
  playerMoveSan : String
  playerMoveGames : Nat
  bestMoveUci : String
  bestMoveSan : String
  evalCp : ℚ
  playerEvalCp : ℚ
  evalGapCp : ℚ
  score : ℚ
  depthEvals : List (Nat × String)
  deriving Repr, DecidableEq

/-- The engine collaborator of the habit detector. -/
structure HabitsOracles (B : Type) where
  parseBoard : String → Option B
  analyseMultipv : B → Nat → Nat → List EngineInfo
  analyseSingle : B → Nat → EngineInfo

/-- `fen.startswith("_")`: the first character is an underscore (metadata
keys of the position cache). -/
def isMetaKey (s : String) : Bool :=
  match s.data with
  | [] => false
  | c :: _ => c == '_'

/-- `_infos_to_moves`: serialisable `{"uci", "white_cp"}` pairs, White's
perspective, skipping infos without a pv. -/
def infosToMoves (infos : List EngineInfo) : List EvalMove :=
  infos.filterMap (fun i =>
    match i.pv with
    | [] => none
    | u :: _ => some ⟨u, i.score true⟩)

/-- The body of the per-qualifying-move loop of `analyze_habits`: skip
unplayable moves and the engine's best move; read the move's eval from the
MultiPV dict or fall back to a dedicated evaluation of the resulting
position (eval cache first, with write-back); flag an inaccuracy when the
gap meets `min_eval_gap`. -/
def habitEmit (minEvalGap : Int) (fen : String) (total : Nat)
    (playerUci playerSan : String) (moveGames : Nat)
    (bestMove bestMoveSan : String) (bestCp : ℚ)
    (results : List HabitInaccuracy) (store : Option EvalStore)
    (playerCp : ℚ) : List HabitInaccuracy × Option EvalStore :=
  let evalGap := bestCp - playerCp
  if evalGap < (minEvalGap : ℚ) then (results, store)
  else
    (results ++
      [⟨fen, total, playerUci, playerSan, moveGames, bestMove, bestMoveSan,
        bestCp, playerCp, evalGap, (moveGames : ℚ) * evalGap / 100, []⟩],
     store)

def habitMoveStep {B : Type} (rules : ChessRules B) (orc : HabitsOracles B)
    (playerColor : Bool) (minEvalGap : Int) (depth : Nat) (fen : String)
    (total : Nat) (board : B) (bestMove bestMoveSan : String) (bestCp : ℚ)
    (multipvEvals : List (String × ℚ))
    (acc : List HabitInaccuracy × Option EvalStore) (m : MoveStats) :
    List HabitInaccuracy × Option EvalStore :=
  let results := acc.1
  let store := acc.2
  if ¬ rules.legal board m.uci then acc
  else if m.uci == bestMove then acc
  else
    let moveGames := m.white + m.draws + m.black
    let emit := habitEmit minEvalGap fen total m.uci (rules.san board m.uci)
      moveGames bestMove bestMoveSan bestCp
    match dictLookup multipvEvals m.uci with
    | some cp => emit results store cp
    | none =>
      let afterBoard := rules.push board m.uci
      let afterFen := rules.fen afterBoard
      let afterCached :=
        match store with
        | some s => EvalCache.get s afterFen depth 1
        | none => none
      match afterCached with
      | some (e0 :: _) =>
        emit results store
          (if playerColor then (e0.whiteCp : ℚ) else -(e0.whiteCp : ℚ))
      | _ =>
        let infoAfter := orc.analyseSingle afterBoard depth
        let store2 :=
          match store with
          | some s =>
            some (EvalCache.put s afterFen depth (infosToMoves [infoAfter]) 0)
          | none => none
        emit results store2 ((infoAfter.score playerColor : Int) : ℚ)

/-- The per-position body of `analyze_habits`: parse the board, verify it is
the player's turn, obtain (cache first, else one MultiPV engine call with
write-back) the best move, its eval and the per-move eval dict, then run
the per-move loop. -/
def habitsStep {B : Type} (rules : ChessRules B) (orc : HabitsOracles B)
    (playerColor : Bool) (minEvalGap : Int) (depth : Nat)
    (acc : List HabitInaccuracy × Option EvalStore)
    (entry : String × ExplorerData × List MoveStats) :
    List HabitInaccuracy × Option EvalStore :=
  let fen := entry.1
  let payload := entry.2.1
  let qmoves := entry.2.2
  let total := payload.total
  match orc.parseBoard fen with
  | none => acc
  | some board =>
    if rules.turn board ≠ playerColor then acc
    else
      let multipvK := min (max (qmoves.length + 1) 5) 20
      let cached0 :=
        match acc.2 with
        | some s => EvalCache.get s fen depth multipvK
        | none => none
      let cached :=
        match cached0 with
        | some (c0 :: cs) =>
          if rules.legal board c0.uci then some (c0 :: cs) else none
        | _ => none
      match cached with
      | some (c0 :: cs) =>
        let bestCp : ℚ :=
          if playerColor then (c0.whiteCp : ℚ) else -(c0.whiteCp : ℚ)
        let multipvEvals := (c0 :: cs).foldl
          (fun d e => dictUpsert d e.uci
            (if playerColor then (e.whiteCp : ℚ) else -(e.whiteCp : ℚ))) []
        qmoves.foldl
          (habitMoveStep rules orc playerColor minEvalGap depth fen total
            board c0.uci (rules.san board c0.uci) bestCp multipvEvals)
          (acc.1, acc.2)
      | _ =>
        let infos := orc.analyseMultipv board depth multipvK
        match infos with
        | [] => acc
        | info0 :: _ =>
          match info0.pv with
          | [] => acc
          | bestMove :: _ =>
            if ¬ rules.legal board bestMove then acc
            else
              let bestCp : ℚ := (info0.score playerColor : ℚ)
              let multipvEvals := infos.foldl
                (fun d i =>
                  match i.pv with
                  | [] => d
                  | u :: _ => dictUpsert d u ((i.score playerColor : Int) : ℚ)) []
              let store1 :=
                match acc.2 with
                | some s =>
                  some (EvalCache.put s fen depth (infosToMoves infos) 0)
                | none => none
              qmoves.foldl
                (habitMoveStep rules orc playerColor minEvalGap depth fen
                  total board bestMove (rules.san board bestMove) bestCp
                  multipvEvals)
                (acc.1, store1)

/-- `analyze_habits`: filter out metadata keys, keep positions reached at
least `min_games` times that have qualifying moves (each played at least
`min_games` times), process the most-frequent `max_positions * 5` positions,
and return the top `max_positions` inaccuracies by score. -/
def analyzeHabits {B : Type} (rules : ChessRules B) (orc : HabitsOracles B)
    (playerColor : Bool) (allPositions : List (String × ExplorerData))
    (minGames maxPositions : Nat) (minEvalGap : Int) (depth : Nat)
    (evalCache : Option EvalStore) : List HabitInaccuracy :=
  let positions := allPositions.filter (fun fp => ¬ isMetaKey fp.1)
  let byFen : List (String × ExplorerData × List MoveStats) :=
    positions.filterMap (fun fp =>
      if fp.2.total < minGames then none
      else
        let qualifying := fp.2.moves.filter
          (fun m => minGames ≤ m.white + m.draws + m.black)
        if qualifying = [] then none
        else some (fp.1, fp.2, qualifying))
  let evalCap := maxPositions * 5
  let sortedFens :=
    (stableSort (fun a b => b.2.1.total ≤ a.2.1.total) byFen).take evalCap
  let run := sortedFens.foldl
    (habitsStep rules orc playerColor minEvalGap depth) ([], evalCache)
  (stableSort (fun a b => b.score ≤ a.score) run.1).take maxPositions

/-- Soundness of one emitted habit inaccuracy: the gap meets the configured
floor, the gap is best-eval − player-eval, and the score is
`games-with-this-move × gap / 100`. -/
def habitSound (minEvalGap : Int) (h : HabitInaccuracy) : Prop :=
  (minEvalGap : ℚ) ≤ h.evalGapCp
  ∧ h.evalGapCp = h.evalCp - h.playerEvalCp
  ∧ h.score = (h.playerMoveGames : ℚ) * h.evalGapCp / 100

/-! ## Concrete instances used by witnesses and counterexamples -/

/-- A concrete board type for witnesses: the list of UCI moves played. -/
def rulesW : ChessRules (List String) :=
  { fen := fun b => String.intercalate " " b
    turn := fun b => b.length % 2 == 0
    san := fun _ m => m
    push := fun b m => b ++ [m]
    legal := fun _ _ => true }

/-- A small search configuration for witnesses. -/
def cfgW : SearchConfig :=
  { fen := ""
    side := true
    maxBookPlies := 4
    minBookGames := 1
    noveltyThreshold := 2
    engineCandidates := 2
    opponentResponses := 2
    depths := [6, 8]
    timeMs := 100
    minEvalCp := 0
    continuationPlies := 4
    maxWorkers := 1
    maxPositions := 10
    maxCandidates := 10
    playerName := none
    opponentName := none
    minPlayerGames := 3
    minOpponentGames := 3 }

/-- Witness oracles: at the root the engine offers an in-book move (e2e4,
150 games) and a zero-game novelty (d2d4); deeper positions are out of
book. -/
def orcW : WalkOracles (List String) :=
  { engine := fun b =>
      if b = [] then
        [⟨["e2e4"], fun _ => 40⟩, ⟨["d2d4"], fun _ => 10⟩]
      else [⟨["g1f3"], fun _ => 30⟩]
    explorer := fun fen =>
      if fen = "" then some ⟨50, 50, 50, [⟨"e2e4", 50, 50, 50, 0⟩]⟩
      else some ⟨0, 0, 0, []⟩
    player := none
    opponent := none }

/-- The empty walk state. -/
def stW : WalkState (List String) := ⟨[], [], 0, []⟩

/-- Sparse personal data: 1 total game at the position, below
`min_player_games = 3`. -/
def sparsePlayerData : ExplorerData := ⟨1, 0, 0, [⟨"e2e4", 1, 0, 0, 0⟩]⟩

/-- A staged candidate for the deep-evaluation witness. -/
def pendingW : PendingNovelty (List String) := ⟨[], [], [], "d2d4", 300, 0, 10⟩

/-- Deep-eval engine oracle: +50 cp from White at every depth. -/
def cpWW : List String → Nat → Option Int := fun _ _ => some 50

/-- Deep-eval engine oracle: no mate at any depth. -/
def mateWW : List String → Nat → Option Int := fun _ _ => none

/-- Deep-eval engine oracle: a two-ply principal variation. -/
def pvWW : List String → Nat → List String := fun _ _ => ["e7e5", "g1f3"]

/-- The novelty line `evaluateCandidate` produces from `pendingW`. -/
def nlW : NoveltyLine :=
  { bookMoves := []
    noveltyMove := "d2d4"
    noveltyPly := 0
    evals := [(6, ⟨6, some 50, none⟩), (8, ⟨8, some 50, none⟩)]
    preNoveltyGames := 300
    postNoveltyGames := 0
    continuations := ["e7e5", "g1f3"] }

/-- Habit-detector oracles realising spec scenario 5: the engine's best move
`y` evaluates 80 cp, the player's habitual move `x` 20 cp. -/
def orcH : HabitsOracles (List String) :=
  { parseBoard := fun fen => if fen = "p" then some [] else none
    analyseMultipv := fun _ _ _ => [⟨["y"], fun _ => 80⟩, ⟨["x"], fun _ => 20⟩]
    analyseSingle := fun _ _ => ⟨["y"], fun _ => 0⟩ }

/-- One cached position reached 30 times, the move `x` chosen 20 times. -/
def positionsH : List (String × ExplorerData) :=
  [("p", ⟨20, 5, 5, [⟨"x", 15, 3, 2, 0⟩]⟩)]

/-- The habit inaccuracy of spec scenario 5: gap 60 cp, score 20·60/100. -/
def hW : HabitInaccuracy :=
  ⟨"p", 30, "x", "x", 20, "y", "y", 80, 20, 60, 12, []⟩

/-- A novelty line with numeric evaluations at two depths. -/
def novW : NoveltyLine :=
  { bookMoves := ["e2e4", "e7e5"]
    noveltyMove := "b1c3"
    noveltyPly := 2
    evals := [(6, ⟨6, some 40, none⟩), (8, ⟨8, some 50, none⟩)]
    preNoveltyGames := 3000
    postNoveltyGames := 0
    continuations := [] }

/-- A novelty line with no numeric centipawn value at any depth, an adverse
mate at the first depth and a favourable mate at the second. -/
def novC6 : NoveltyLine :=
  { bookMoves := []
    noveltyMove := "e2e4"
    noveltyPly := 0
    evals := [(20, ⟨20, none, some (-3)⟩), (22, ⟨22, none, some 3⟩)]
    preNoveltyGames := 10
    postNoveltyGames := 0
    continuations := [] }

/-- Spec scenario 4 as a write sequence: depth 20, then 16 (ignored), then
24 (replaces). -/
def wsW : List EvalWrite :=
  [⟨20, [⟨"e2e4", 31⟩], 0⟩, ⟨16, [⟨"d2d4", 25⟩], 1⟩, ⟨24, [⟨"g1f3", 28⟩], 2⟩]

/-- The empty evaluation-cache store. -/
def emptyEvalStore : EvalStore := fun _ => none

/-- A toy JSON decoder for `Cache.get`: exactly one payload is valid. -/
def natParse (s : String) : Option Nat :=
  if s = "42" then some 42 else none

/-- A position-cache store holding an unparseable payload under one key. -/
def corruptCacheStore : RawCacheStore := fun fen backend =>
  if fen = "f" ∧ backend = "lichess_masters" then some "not json" else none

/-- A toy JSON decoder for `EvalCache.getRaw`: a single payload is valid. -/
def evalMovesParse (s : String) : Option (List EvalMove) :=
  if s = "ok" then some [⟨"e2e4", 31⟩] else none

/-- An eval-cache store holding an unparseable `moves_json` under one key. -/
def corruptEvalStore : String → Option RawEvalRow := fun fen =>
  if fen = "f" then some ⟨30, "not json", 0⟩ else none

/-! ## Cache lemmas -/

theorem EvalCache.put_apply_self (s : EvalStore) (fen : String) (d : Nat)
    (m : List EvalMove) (ts : Nat) (hm : m ≠ []) :
    EvalCache.put s fen d m ts fen =
      match s fen with
      | none => some ⟨d, m.take MAX_MULTIPV, ts⟩
      | some r =>
        some ⟨if d ≥ r.depth then d else r.depth,
              if d ≥ r.depth then m.take MAX_MULTIPV else r.moves, ts⟩ := by
  simp [EvalCache.put, hm]

theorem maxWriteDepth_append_singleton (l : List EvalWrite) (w : EvalWrite) :
    maxWriteDepth (l ++ [w]) = max (maxWriteDepth l) w.depth := by
  simp [maxWriteDepth, List.foldl_append]

theorem applyWrites_append_singleton (s : EvalStore) (fen : String)
    (l : List EvalWrite) (w : EvalWrite) :
    applyWrites s fen (l ++ [w]) =
      EvalCache.put (applyWrites s fen l) fen w.depth w.moves w.ts := by
  simp [applyWrites, List.foldl_append]

theorem applyWrites_char (fen : String) :
    ∀ (ws : List EvalWrite) (s : EvalStore), ws ≠ [] →
    (∀ w ∈ ws, w.moves ≠ [] ∧ w.moves.length ≤ MAX_MULTIPV) → s fen = none →
    ∃ wj t, lastDeepestWrite ws = some wj ∧
      applyWrites s fen ws fen = some ⟨maxWriteDepth ws, wj.moves, t⟩ := by
  intro ws
  induction ws using List.reverseRecOn with
  | nil => intro s h; exact absurd rfl h
  | append_singleton l w ih =>
    intro s _ hmv h0
    have hw := hmv w (by simp)
    have htake : w.moves.take MAX_MULTIPV = w.moves := List.take_of_length_le hw.2
    rcases List.eq_nil_or_concat' l with hl | ⟨l', a, rfl⟩
    · subst hl
      refine ⟨w, w.ts, ?_, ?_⟩
      · simp [lastDeepestWrite, maxWriteDepth, List.find?]
      · rw [applyWrites_append_singleton, EvalCache.put_apply_self _ _ _ _ _ hw.1]
        simp [applyWrites, h0, maxWriteDepth, htake]
    · have hlne : l' ++ [a] ≠ [] := by simp
      set l := l' ++ [a] with hldef
      obtain ⟨wj', t', hfind', happ'⟩ :=
        ih s hlne (fun x hx => hmv x (by simp [hx])) h0
      rw [applyWrites_append_singleton, EvalCache.put_apply_self _ _ _ _ _ hw.1, happ']
      by_cases hd : w.depth ≥ maxWriteDepth l
      · refine ⟨w, w.ts, ?_, ?_⟩
        · have hmax : maxWriteDepth (l ++ [w]) = w.depth := by
            rw [maxWriteDepth_append_singleton]; exact Nat.max_eq_right hd
          simp [lastDeepestWrite, hmax]
        · have hmax : maxWriteDepth (l ++ [w]) = w.depth := by
            rw [maxWriteDepth_append_singleton]; exact Nat.max_eq_right hd
          simp [hd, htake, hmax]
      · have hlt : w.depth < maxWriteDepth l := Nat.lt_of_not_le hd
        have hmax : maxWriteDepth (l ++ [w]) = maxWriteDepth l := by
          rw [maxWriteDepth_append_singleton]; exact Nat.max_eq_left (Nat.le_of_lt hlt)
        refine ⟨wj', w.ts, ?_, ?_⟩
        · have hne2 : (w.depth == maxWriteDepth l) = false := by
            simp only [beq_eq_false_iff_ne]; omega
          simp only [lastDeepestWrite, List.reverse_append, List.reverse_singleton,
            List.singleton_append, List.find?, hmax, hne2]
          simpa [lastDeepestWrite] using hfind'
        · simp [hd, hmax]

/-- C1: EvaluationCache depth monotonicity.  For a position key starting
empty and any sequence of non-empty `EvalCache.put` calls (each within the
`MAX_MULTIPV` row capacity), the store afterwards holds the greatest depth
seen and the move list of the last write attaining it; a put whose depth is
strictly below the stored depth leaves the stored depth and move list
unchanged, and a put whose depth is ≥ the stored depth replaces both. -/
theorem evalCache_depth_monotone (s : EvalStore) (fen : String)
    (ws : List EvalWrite) (h0 : s fen = none) (hne : ws ≠ [])
    (hmv : ∀ w ∈ ws, w.moves ≠ [] ∧ w.moves.length ≤ MAX_MULTIPV) :
    (∃ wj t, lastDeepestWrite ws = some wj ∧ wj.depth = maxWriteDepth ws ∧
       applyWrites s fen ws fen = some ⟨maxWriteDepth ws, wj.moves, t⟩)
    ∧ (∀ (s' : EvalStore) (r : EvalRow) (d : Nat) (m : List EvalMove) (t : Nat),
         s' fen = some r → d < r.depth →
         ∃ r', EvalCache.put s' fen d m t fen = some r' ∧
           r'.depth = r.depth ∧ r'.moves = r.moves)
    ∧ (∀ (s' : EvalStore) (r : EvalRow) (d : Nat) (m : List EvalMove) (t : Nat),
         s' fen = some r → r.depth ≤ d → m ≠ [] → m.length ≤ MAX_MULTIPV →
         EvalCache.put s' fen d m t fen = some ⟨d, m, t⟩) := by
  refine ⟨?_, ?_, ?_⟩
  · obtain ⟨wj, t, hfind, happ⟩ := applyWrites_char fen ws s hne hmv h0
    refine ⟨wj, t, hfind, ?_, happ⟩
    have := List.find?_some hfind
    simpa using this
  · intro s' r d m t hr hlt
    by_cases hm : m = []
    · subst hm
      exact ⟨r, by simpa [EvalCache.put] using hr, rfl, rfl⟩
    · rw [EvalCache.put_apply_self _ _ _ _ _ hm, hr]
      have hge : ¬ d ≥ r.depth := by omega
      exact ⟨_, rfl, by simp [hge], by simp [hge]⟩
  · intro s' r d m t hr hge hm hlen
    rw [EvalCache.put_apply_self _ _ _ _ _ hm, hr]
    simp [hge, List.take_of_length_le hlen]

/-- Witness for C1 at spec scenario 4 (writes at depths 20, 16, 24). -/
theorem evalCache_depth_monotone_witness :
    (emptyEvalStore "k" = none ∧ wsW ≠ [] ∧
      ∀ w ∈ wsW, w.moves ≠ [] ∧ w.moves.length ≤ MAX_MULTIPV)
    ∧ ((∃ wj t, lastDeepestWrite wsW = some wj ∧ wj.depth = maxWriteDepth wsW ∧
          applyWrites emptyEvalStore "k" wsW "k" =
            some ⟨maxWriteDepth wsW, wj.moves, t⟩)
       ∧ (∀ (s' : EvalStore) (r : EvalRow) (d : Nat) (m : List EvalMove) (t : Nat),
            s' "k" = some r → d < r.depth →
            ∃ r', EvalCache.put s' "k" d m t "k" = some r' ∧
              r'.depth = r.depth ∧ r'.moves = r.moves)
       ∧ (∀ (s' : EvalStore) (r : EvalRow) (d : Nat) (m : List EvalMove) (t : Nat),
            s' "k" = some r → r.depth ≤ d → m ≠ [] → m.length ≤ MAX_MULTIPV →
            EvalCache.put s' "k" d m t "k" = some ⟨d, m, t⟩)) :=
  ⟨⟨rfl, by decide, by decide⟩,
   evalCache_depth_monotone emptyEvalStore "k" wsW rfl (by decide) (by decide)⟩

/-- C10: an `EvalCache.put` with an empty move list is a no-op — the store
is unchanged and every subsequent `get` returns what it returned before. -/
theorem evalCache_put_empty_noop (s : EvalStore) (fen : String) (d ts : Nat) :
    EvalCache.put s fen d [] ts = s ∧
    ∀ f dep k, EvalCache.get (EvalCache.put s fen d [] ts) f dep k =
      EvalCache.get s f dep k := by
  constructor
  · simp [EvalCache.put]
  · intro f dep k
    simp [EvalCache.put]

/-- C3: on an unparseable stored payload, `EvalCache.get` returns a miss
(`none`) but `Cache.get` propagates the JSON decoding exception
(`Except.error`), contradicting the claim that both treat corruption as a
miss.  Both stores hold a syntactically invalid payload under key `"f"`. -/
theorem cache_get_corrupt_payload :
    Cache.get natParse corruptCacheStore "f" "lichess_masters" =
      Except.error ()
    ∧ EvalCache.getRaw evalMovesParse corruptEvalStore "f" 20 1 = none := by
  constructor
  · have hp : natParse "not json" = none := by decide
    simp [Cache.get, corruptCacheStore, natParse, hp]
  · simp [EvalCache.getRaw, corruptEvalStore, evalMovesParse]

/-! ## Scorer theorems -/

theorem hasMateFor_eq_firstMateEval (evals : List (Nat × EngineEval))
    (side : Bool) :
    hasMateFor evals side =
      (match firstMateEval evals with
       | some ev => decide (0 < ev.mateWhite.getD 0) == side
       | none => false) := by
  induction evals with
  | nil => rfl
  | cons p rest ih =>
    rcases p with ⟨d, ev⟩
    cases hm : ev.mateWhite with
    | none => simpa [hasMateFor, firstMateEval, List.find?, hm] using ih
    | some m => simp [hasMateFor, firstMateEval, List.find?, hm]

theorem depthBonus_pos (ply : Nat) : 0 < depthBonus ply :=
  Real.exp_pos _

theorem depthBonus_le_one (ply : Nat) : depthBonus ply ≤ 1 := by
  rw [depthBonus, ← Real.exp_zero]
  apply Real.exp_le_exp.mpr
  have h1 : (0 : ℝ) ≤ (((ply : ℝ) - DEPTH_PEAK) ^ 2) / (2 * DEPTH_SIGMA ^ 2) := by
    apply div_nonneg (sq_nonneg _)
    rw [DEPTH_SIGMA]; norm_num
  rw [neg_div]
  exact neg_nonpos.mpr h1

/-- C5: the composite score is `eval_cp − 8·stability + 30·depth_bonus`,
where `eval_cp` is the mean of the perspective-corrected centipawn values of
the depths with a numeric score, `stability` their sample standard deviation
(0 with fewer than two values), and the depth bonus
`exp(−(ply − 14)² / (2·8²))` lies in `(0, 1]`; the function is pure, so
identical inputs give identical output. -/
theorem score_novelty_formula (nov : NoveltyLine) (side : Bool) :
    (scoreNovelty nov side).score =
      (scoreNovelty nov side).evalCp
        - STABILITY_WEIGHT * (scoreNovelty nov side).stability
        + DEPTH_WEIGHT * depthBonus nov.noveltyPly
    ∧ 0 < depthBonus nov.noveltyPly ∧ depthBonus nov.noveltyPly ≤ 1
    ∧ (cpValuesOf nov.evals side ≠ [] →
        (scoreNovelty nov side).evalCp = statisticsMean (cpValuesOf nov.evals side)
        ∧ (scoreNovelty nov side).stability =
            (if 1 < (cpValuesOf nov.evals side).length
             then statisticsStdev (cpValuesOf nov.evals side) else 0))
    ∧ (∀ nov' side', nov' = nov → side' = side →
        scoreNovelty nov' side' = scoreNovelty nov side) := by
  refine ⟨rfl, depthBonus_pos _, depthBonus_le_one _, ?_, ?_⟩
  · intro h
    constructor
    · simp [scoreNovelty, h]
    · simp [scoreNovelty, h]
  · intro nov' side' h1 h2
    rw [h1, h2]

/-- Witness for C5 at a concrete novelty line with two numeric depths. -/
theorem score_novelty_formula_witness :
    cpValuesOf novW.evals true ≠ []
    ∧ ((scoreNovelty novW true).evalCp = statisticsMean (cpValuesOf novW.evals true)
       ∧ (scoreNovelty novW true).stability =
           (if 1 < (cpValuesOf novW.evals true).length
            then statisticsStdev (cpValuesOf novW.evals true) else 0))
    ∧ (scoreNovelty novW true).score =
        (scoreNovelty novW true).evalCp
          - STABILITY_WEIGHT * (scoreNovelty novW true).stability
          + DEPTH_WEIGHT * depthBonus novW.noveltyPly :=
  ⟨by decide,
   (score_novelty_formula novW true).2.2.2.1 (by decide),
   (score_novelty_formula novW true).1⟩

/-- C6 counterexample: `novC6` has no numeric centipawn value at any depth
and a mate in White's favour at depth 22, yet scoring it for White yields
`eval_cp = −10000`, because `_has_mate_for` only inspects the FIRST eval
carrying a mate (here the adverse mate at depth 20).  This refutes "+10000
if a mate in the researched side's favor exists at any depth". -/
theorem scorer_mate_fallback_cex :
    ((22, ⟨22, none, some 3⟩) : Nat × EngineEval) ∈ novC6.evals
    ∧ (∀ p ∈ novC6.evals, p.2.cpWhite = none)
    ∧ ((3 : Int) > 0)
    ∧ (scoreNovelty novC6 true).evalCp = -10000 := by
  refine ⟨by decide, by decide, by norm_num, ?_⟩
  have h1 : cpValuesOf novC6.evals true = [] := by decide
  have h2 : hasMateFor novC6.evals true = false := by decide
  simp [scoreNovelty, h1, h2]

/-- C6 amended: with no numeric centipawn value at any depth, `eval_cp` is
`+10000` iff the FIRST eval (in depth-insertion order) that carries a mate
score has the mate in the researched side's favour, and `−10000` otherwise
(also when no depth carries a mate at all); in either case `stability`
is 0. -/
theorem scorer_mate_fallback (nov : NoveltyLine) (side : Bool)
    (h : cpValuesOf nov.evals side = []) :
    (scoreNovelty nov side).evalCp =
      (if hasMateFor nov.evals side then (10000 : ℝ) else -10000)
    ∧ (scoreNovelty nov side).stability = 0
    ∧ hasMateFor nov.evals side =
        (match firstMateEval nov.evals with
         | some ev => decide (0 < ev.mateWhite.getD 0) == side
         | none => false) := by
  refine ⟨?_, ?_, hasMateFor_eq_firstMateEval nov.evals side⟩
  · simp [scoreNovelty, h]
  · simp [scoreNovelty, h]

/-- Witness for the amended C6 at the concrete input `novC6`. -/
theorem scorer_mate_fallback_witness :
    cpValuesOf novC6.evals true = []
    ∧ ((scoreNovelty novC6 true).evalCp =
        (if hasMateFor novC6.evals true then (10000 : ℝ) else -10000)
       ∧ (scoreNovelty novC6 true).stability = 0
       ∧ hasMateFor novC6.evals true =
          (match firstMateEval novC6.evals with
           | some ev => decide (0 < ev.mateWhite.getD 0) == true
           | none => false)) :=
  ⟨by decide, scorer_mate_fallback novC6 true (by decide)⟩

/-! ## Walk theorems -/

theorem foldl_preserve {σ α : Type _} (P : σ → Prop) (f : σ → α → σ) :
    ∀ (l : List α), (∀ s a, a ∈ l → P s → P (f s a)) →
    ∀ s, P s → P (l.foldl f s) := by
  intro l
  induction l with
  | nil => intro _ s hs; exact hs
  | cons x xs ih =>
    intro h s hs
    exact ih (fun s a ha hp => h s a (List.mem_cons_of_mem _ ha) hp) _
      (h s x (List.mem_cons_self _ _) hs)

theorem ourTurnStep_preserves {B : Type} (rules : ChessRules B)
    (cfg : SearchConfig) (board : B) (data : ExplorerData)
    (playerData : Option ExplorerData) (bm bms : List String)
    (recur : B → List String → List String → WalkState B → WalkState B)
    (P : WalkState B → Prop)
    (hpend : ∀ (st : WalkState B) (p : PendingNovelty B),
      p.postNoveltyGames ≤ cfg.noveltyThreshold → P st →
      P { st with pending := st.pending ++ [p] })
    (hrec : ∀ b x y s, P s → P (recur b x y s)) :
    ∀ (st : WalkState B) (info : EngineInfo), P st →
      P (ourTurnStep rules cfg board data playerData bm bms recur st info) := by
  intro st info h
  unfold ourTurnStep
  cases hpv : info.pv with
  | nil => exact h
  | cons move rest =>
    by_cases hpost : data.gamesForMove move ≤ cfg.noveltyThreshold
    · by_cases hq : info.score cfg.side ≥ cfg.minEvalCp
      · simp only [hpost, hq, if_true]
        exact hpend st _ hpost h
      · simp only [hpost, hq, if_true, if_false]
        exact h
    · by_cases hpp : playerPlaysMove move playerData cfg.minPlayerGames
      · simp only [hpost, hpp, if_true, if_false]
        exact hrec _ _ _ _ h
      · simp only [hpost, hpp, if_false]
        exact h

theorem walk_preserves {B : Type} (rules : ChessRules B) (cfg : SearchConfig)
    (orc : WalkOracles B) (P : WalkState B → Prop)
    (hbody : ∀ (st : WalkState B) (fen : String), fen ∉ st.visited → P st →
      P { st with visited := fen :: st.visited
                  positionsVisited := st.positionsVisited + 1
                  bodyLog := st.bodyLog ++ [fen] })
    (hpend : ∀ (st : WalkState B) (p : PendingNovelty B),
      p.postNoveltyGames ≤ cfg.noveltyThreshold → P st →
      P { st with pending := st.pending ++ [p] }) :
    ∀ (fuel : Nat) (board : B) (bm bms : List String) (st : WalkState B),
      P st → P (walk rules cfg orc fuel board bm bms st) := by
  intro fuel
  induction fuel with
  | zero => intro _ _ _ st h; exact h
  | succ fuel ih =>
    intro board bm bms st h
    rw [walk]
    by_cases h1 : rules.fen board ∈ st.visited
    · simp only [h1, if_true]; exact h
    · simp only [h1, if_false]
      by_cases h2 : st.positionsVisited ≥ cfg.maxPositions
      · simp only [h2, if_true]; exact h
      · simp only [h2, if_false]
        by_cases h3 : bm.length ≥ cfg.maxBookPlies
        · simp only [h3, if_true]; exact h
        · simp only [h3, if_false]
          have hst1 : P { st with visited := rules.fen board :: st.visited
                                  positionsVisited := st.positionsVisited + 1
                                  bodyLog := st.bodyLog ++ [rules.fen board] } :=
            hbody st (rules.fen board) h1 h
          cases hdata : orc.explorer (rules.fen board) with
          | none => exact hst1
          | some data =>
            by_cases h4 : data.total < cfg.minBookGames
            · simp only [h4, if_true]; exact hst1
            · simp only [h4, if_false]
              by_cases h5 : rules.turn board = cfg.side
              · simp only [h5, if_true]
                exact foldl_preserve P _ _
                  (fun s a _ hp =>
                    ourTurnStep_preserves rules cfg board data _ bm bms _ P
                      hpend (fun b x y s hs => ih b x y s hs) s a hp)
                  _ hst1
              · simp only [h5, if_false]
                exact foldl_preserve P _ _
                  (fun s a _ hp => by
                    by_cases hleg : rules.legal board a.uci
                    · simp only [hleg, if_true]
                      exact ih _ _ _ s hp
                    · simp only [hleg, if_false]; exact hp)
                  _ hst1

/-- C2: threshold correctness of the theory walk.  Walking preserves the
invariant that every staged `PendingNovelty` has a post-move game count
within `novelty_threshold`; and the OUR-TURN step never enqueues a move
whose count strictly exceeds the threshold — it either recurses into it or
skips it. -/
theorem walk_threshold_correctness {B : Type} (rules : ChessRules B)
    (cfg : SearchConfig) (orc : WalkOracles B) :
    (∀ (fuel : Nat) (board : B) (bm bms : List String) (st : WalkState B),
       pendingBelowThreshold cfg st →
       pendingBelowThreshold cfg (walk rules cfg orc fuel board bm bms st))
    ∧ (∀ (board : B) (data : ExplorerData) (playerData : Option ExplorerData)
         (bm bms : List String)
         (recur : B → List String → List String → WalkState B → WalkState B)
         (st : WalkState B) (info : EngineInfo) (move : String)
         (rest : List String),
        info.pv = move :: rest →
        cfg.noveltyThreshold < data.gamesForMove move →
        ourTurnStep rules cfg board data playerData bm bms recur st info = st
        ∨ ourTurnStep rules cfg board data playerData bm bms recur st info =
            recur (rules.push board move) (bm ++ [move])
              (bms ++ [rules.san board move]) st) := by
  constructor
  · intro fuel board bm bms st h
    refine walk_preserves rules cfg orc (pendingBelowThreshold cfg) ?_ ?_
      fuel board bm bms st h
    · intro st' fen _ hp
      exact hp
    · intro st' p hple hp q hq
      rcases List.mem_append.mp hq with hq | hq
      · exact hp q hq
      · simp only [List.mem_singleton] at hq
        subst hq
        exact hple
  · intro board data playerData bm bms recur st info move rest hpv hgt
    unfold ourTurnStep
    rw [hpv]
    have hle : ¬ data.gamesForMove move ≤ cfg.noveltyThreshold := by omega
    by_cases hpp : playerPlaysMove move playerData cfg.minPlayerGames
    · right; simp [hle, hpp]
    · left; simp [hle, hpp]

/-- Witness for C2: running the walk on a concrete world where the engine
offers an in-book move and a zero-game novelty; the invariant holds of the
result. -/
theorem walk_threshold_correctness_witness :
    pendingBelowThreshold cfgW stW
    ∧ pendingBelowThreshold cfgW (walk rulesW cfgW orcW 4 [] [] [] stW) :=
  ⟨fun p hp => by simp [stW] at hp,
   (walk_threshold_correctness rulesW cfgW orcW).1 4 [] [] [] stW
     (fun p hp => by simp [stW] at hp)⟩

/-- C9: visited-set de-duplication.  Arriving at an already-visited
position returns the state unchanged (no enqueueing, no recursion, no
counting); and the walk preserves the ghost invariant that the post-guard
body executed at most once per canonical position string. -/
theorem walk_visited_dedup {B : Type} (rules : ChessRules B)
    (cfg : SearchConfig) (orc : WalkOracles B) :
    ∀ (fuel : Nat) (board : B) (bm bms : List String) (st : WalkState B),
      (rules.fen board ∈ st.visited →
        walk rules cfg orc fuel board bm bms st = st)
      ∧ (dedupInv st → dedupInv (walk rules cfg orc fuel board bm bms st)) := by
  intro fuel board bm bms st
  constructor
  · intro hmem
    cases fuel with
    | zero => rfl
    | succ fuel => rw [walk]; simp only [hmem, if_true]
  · intro hinv
    refine walk_preserves rules cfg orc dedupInv ?_ ?_ fuel board bm bms st hinv
    · intro st' fen hnm hp
      refine ⟨?_, ?_⟩
      · rw [List.nodup_append]
        refine ⟨hp.1, List.nodup_singleton _, ?_⟩
        intro a ha hb
        simp only [List.mem_singleton] at hb
        subst hb
        exact hnm (hp.2 a ha)
      · intro f hf
        rcases List.mem_append.mp hf with hf | hf
        · exact List.mem_cons_of_mem _ (hp.2 f hf)
        · simp only [List.mem_singleton] at hf
          subst hf
          exact List.mem_cons_self _ _
    · intro st' p _ hp
      exact hp

/-- Witness for C9: a second arrival at a visited position is the identity,
and the ghost invariant holds after a concrete run. -/
theorem walk_visited_dedup_witness :
    (rulesW.fen ["e2e4"] ∈ (⟨[], ["e2e4"], 1, ["e2e4"]⟩ : WalkState (List String)).visited
     ∧ walk rulesW cfgW orcW 4 ["e2e4"] [] []
         (⟨[], ["e2e4"], 1, ["e2e4"]⟩ : WalkState (List String)) =
       (⟨[], ["e2e4"], 1, ["e2e4"]⟩ : WalkState (List String)))
    ∧ (dedupInv stW ∧ dedupInv (walk rulesW cfgW orcW 4 [] [] [] stW)) :=
  ⟨⟨by decide,
    (walk_visited_dedup rulesW cfgW orcW 4 ["e2e4"] [] [] _).1 (by decide)⟩,
   ⟨⟨List.nodup_nil, fun f hf => by simp [stW] at hf⟩,
    (walk_visited_dedup rulesW cfgW orcW 4 [] [] [] stW).2
      ⟨List.nodup_nil, fun f hf => by simp [stW] at hf⟩⟩⟩

/-- C7: permissive repertoire fallback.  For an in-book move at our turn the
OUR-TURN step recurses into the move iff `_player_plays_move` allows it, and
`_player_plays_move` returns `true` exactly when the player's data is
absent, or the player's total games at the position are below
`min_player_games`, or the player played this exact move at least
`min_player_games` times — so sparse or missing personal data never blocks
recursion. -/
theorem player_filter_permissive {B : Type} (rules : ChessRules B)
    (cfg : SearchConfig) (board : B) (data : ExplorerData)
    (playerData : Option ExplorerData) (bm bms : List String)
    (recur : B → List String → List String → WalkState B → WalkState B)
    (st : WalkState B) (info : EngineInfo) (move : String)
    (rest : List String) (hpv : info.pv = move :: rest)
    (hgt : cfg.noveltyThreshold < data.gamesForMove move) :
    ourTurnStep rules cfg board data playerData bm bms recur st info =
      (if playerPlaysMove move playerData cfg.minPlayerGames
       then recur (rules.push board move) (bm ++ [move])
         (bms ++ [rules.san board move]) st
       else st)
    ∧ (playerPlaysMove move playerData cfg.minPlayerGames = true ↔
        (playerData = none
         ∨ ∃ pd, playerData = some pd ∧
            (pd.total < cfg.minPlayerGames
             ∨ cfg.minPlayerGames ≤ pd.gamesForMove move))) := by
  constructor
  · unfold ourTurnStep
    rw [hpv]
    have hle : ¬ data.gamesForMove move ≤ cfg.noveltyThreshold := by omega
    simp only [hle, if_false]
  · unfold playerPlaysMove
    cases playerData with
    | none => simp
    | some pd =>
      by_cases htot : pd.total < cfg.minPlayerGames
      · simp [htot]
      · simp only [htot, if_false, decide_eq_true_eq, ge_iff_le]
        constructor
        · intro hg
          exact Or.inr ⟨pd, rfl, Or.inr hg⟩
        · rintro (habs | ⟨pd', hpd', hca | hcb⟩)
          · exact absurd habs (by simp)
          · cases Option.some.inj hpd'
            exact absurd hca htot
          · cases Option.some.inj hpd'
            exact hcb

/-- Witness for C7: sparse personal data (1 game < min 3) falls back to
permissive recursion on the in-book move e2e4. -/
theorem player_filter_permissive_witness :
    ((⟨["e2e4"], fun _ => 40⟩ : EngineInfo).pv = "e2e4" :: []
     ∧ cfgW.noveltyThreshold <
        (⟨50, 50, 50, [⟨"e2e4", 50, 50, 50, 0⟩]⟩ : ExplorerData).gamesForMove "e2e4")
    ∧ (ourTurnStep rulesW cfgW [] ⟨50, 50, 50, [⟨"e2e4", 50, 50, 50, 0⟩]⟩
         (some sparsePlayerData) [] [] (fun _ _ _ s => s) stW
         ⟨["e2e4"], fun _ => 40⟩ =
        (if playerPlaysMove "e2e4" (some sparsePlayerData) cfgW.minPlayerGames
         then (fun _ _ _ s => s) (rulesW.push [] "e2e4") ([] ++ ["e2e4"])
           ([] ++ [rulesW.san [] "e2e4"]) stW
         else stW)
       ∧ (playerPlaysMove "e2e4" (some sparsePlayerData) cfgW.minPlayerGames = true ↔
           (some sparsePlayerData = none
            ∨ ∃ pd, some sparsePlayerData = some pd ∧
               (pd.total < cfgW.minPlayerGames
                ∨ cfgW.minPlayerGames ≤ pd.gamesForMove "e2e4")))) :=
  ⟨⟨rfl, by decide⟩,
   player_filter_permissive rulesW cfgW [] _ (some sparsePlayerData) [] []
     (fun _ _ _ s => s) stW ⟨["e2e4"], fun _ => 40⟩ "e2e4" [] rfl (by decide)⟩

/-! ## Deep-evaluation and habit-detector theorems -/

theorem mem_stableInsert (le : α → α → Bool) (x a : α) :
    ∀ (l : List α), a ∈ stableInsert le x l ↔ a = x ∨ a ∈ l := by
  intro l
  induction l with
  | nil => simp [stableInsert]
  | cons y ys ih =>
    simp only [stableInsert]
    by_cases h : le x y = true
    · rw [if_pos h]
      simp [List.mem_cons]
    · rw [if_neg h]
      simp only [List.mem_cons, ih]
      tauto

theorem mem_stableSort (le : α → α → Bool) (a : α) :
    ∀ (l : List α), a ∈ stableSort le l ↔ a ∈ l := by
  intro l
  induction l with
  | nil => simp [stableSort]
  | cons x xs ih => simp [stableSort, mem_stableInsert, ih]

theorem habitEmit_sound (g : Int) (fen : String) (total : Nat)
    (uci san : String) (games : Nat) (best bsan : String) (bestCp : ℚ)
    (results : List HabitInaccuracy) (store : Option EvalStore) (pcp : ℚ)
    (hres : ∀ h ∈ results, habitSound g h) :
    ∀ h ∈ (habitEmit g fen total uci san games best bsan bestCp results
      store pcp).1, habitSound g h := by
  intro h hmem
  simp only [habitEmit] at hmem
  split at hmem
  · exact hres h hmem
  · rcases List.mem_append.mp hmem with hm | hm
    · exact hres h hm
    · simp only [List.mem_singleton] at hm
      subst hm
      exact ⟨le_of_not_lt (by assumption), rfl, rfl⟩

theorem habitMoveStep_sound {B : Type} (rules : ChessRules B)
    (orc : HabitsOracles B) (pc : Bool) (g : Int) (depth : Nat) (fen : String)
    (total : Nat) (board : B) (best bsan : String) (bestCp : ℚ)
    (mpv : List (String × ℚ)) (acc : List HabitInaccuracy × Option EvalStore)
    (m : MoveStats) (hacc : ∀ h ∈ acc.1, habitSound g h) :
    ∀ h ∈ (habitMoveStep rules orc pc g depth fen total board best bsan
      bestCp mpv acc m).1, habitSound g h := by
  intro h hmem
  simp only [habitMoveStep] at hmem
  repeat' split at hmem
  all_goals
    first
    | exact hacc h hmem
    | exact habitEmit_sound _ _ _ _ _ _ _ _ _ _ _ _ (fun h hm => hacc h hm)
        h hmem

theorem habitsStep_sound {B : Type} (rules : ChessRules B)
    (orc : HabitsOracles B) (pc : Bool) (g : Int) (depth : Nat)
    (acc : List HabitInaccuracy × Option EvalStore)
    (entry : String × ExplorerData × List MoveStats)
    (hacc : ∀ h ∈ acc.1, habitSound g h) :
    ∀ h ∈ (habitsStep rules orc pc g depth acc entry).1, habitSound g h := by
  intro h hmem
  simp only [habitsStep] at hmem
  repeat' split at hmem
  all_goals
    first
    | exact hacc h hmem
    | (refine foldl_preserve (fun a => ∀ h ∈ a.1, habitSound g h) _ _
         (fun s x _ hp => habitMoveStep_sound rules orc pc g depth _ _ _ _ _
           _ _ s x hp) _ ?_ h hmem
       exact fun h hm => hacc h hm)

theorem analyzeHabits_sound {B : Type} (rules : ChessRules B)
    (orc : HabitsOracles B) (pc : Bool)
    (allPositions : List (String × ExplorerData))
    (minGames maxPositions : Nat) (g : Int) (depth : Nat)
    (evalCache : Option EvalStore) :
    ∀ h ∈ analyzeHabits rules orc pc allPositions minGames maxPositions g
      depth evalCache, habitSound g h := by
  intro h hmem
  simp only [analyzeHabits] at hmem
  have hmem2 := (mem_stableSort _ h _).mp (List.take_subset _ _ hmem)
  revert hmem2
  refine foldl_preserve (fun a => ∀ h ∈ a.1, habitSound g h) _ _
    (fun s x _ hp => habitsStep_sound rules orc pc g depth s x hp) _ ?_ h
  intro h hm
  simp at hm

/-- C4: quality floor.  A `NoveltyLine` emitted by `_evaluate_candidate` has
a perspective-corrected mean evaluation ≥ `min_eval_cp` (and a candidate
whose mean is below the floor yields `None`); and every `HabitInaccuracy`
returned by `analyze_habits` has `eval_gap_cp ≥ min_eval_gap`. -/
theorem quality_floor :
    (∀ (B : Type) (rules : ChessRules B) (cfg : SearchConfig)
       (cpW : B → Nat → Option Int) (mateW : B → Nat → Option Int)
       (pvOf : B → Nat → List String) (p : PendingNovelty B) (nl : NoveltyLine),
      evaluateCandidate rules cfg cpW mateW pvOf p = some nl →
      (cfg.minEvalCp : ℚ) ≤ deepMeanCp nl.evals cfg.side
      ∧ (deepMeanCp nl.evals cfg.side < (cfg.minEvalCp : ℚ) →
          evaluateCandidate rules cfg cpW mateW pvOf p = none))
    ∧ (∀ (B : Type) (rules : ChessRules B) (orc : HabitsOracles B) (pc : Bool)
         (allPositions : List (String × ExplorerData))
         (minGames maxPositions : Nat) (g : Int) (depth : Nat)
         (evalCache : Option EvalStore),
        ∀ h ∈ analyzeHabits rules orc pc allPositions minGames maxPositions g
          depth evalCache, (g : ℚ) ≤ h.evalGapCp) := by
  constructor
  · intro B rules cfg cpW mateW pvOf p nl heq
    simp only [evaluateCandidate] at heq
    split at heq
    · exact absurd heq (by simp)
    · cases Option.some.inj heq
      refine ⟨le_of_not_lt (by assumption), ?_⟩
      intro hlt
      exact absurd hlt (by assumption)
  · intro B rules orc pc allPositions minGames maxPositions g depth evalCache
      h hmem
    exact (analyzeHabits_sound rules orc pc allPositions minGames maxPositions
      g depth evalCache h hmem).1

theorem evaluateCandidate_pendingW :
    evaluateCandidate rulesW cfgW cpWW mateWW pvWW pendingW = some nlW := by
  norm_num +decide [evaluateCandidate, buildEvals, deepMeanCp, cpValuesOf, hasMateFor,
    dictUpsert, stableSort, stableInsert, listMin, rulesW, cfgW, cpWW, mateWW,
    pvWW, pendingW, nlW, EngineEval.cpPov, MAX_MULTIPV, List.filterMap_cons,
    List.filterMap_nil, List.sum_cons, List.sum_nil]

theorem analyzeHabits_positionsH :
    analyzeHabits rulesW orcH true positionsH 5 50 25 20 none = [hW] := by
  norm_num +decide [analyzeHabits, habitsStep, habitMoveStep, habitEmit, isMetaKey,
    dictUpsert, dictLookup, infosToMoves, stableSort, stableInsert, rulesW,
    orcH, positionsH, hW, EvalCache.get, ExplorerData.total, MoveStats.total]

/-- Witness for C4: a concrete candidate passing the deep floor, and the
spec-scenario-5 habit run whose single inaccuracy meets the gap floor. -/
theorem quality_floor_witness :
    (evaluateCandidate rulesW cfgW cpWW mateWW pvWW pendingW = some nlW
     ∧ (cfgW.minEvalCp : ℚ) ≤ deepMeanCp nlW.evals cfgW.side)
    ∧ (hW ∈ analyzeHabits rulesW orcH true positionsH 5 50 25 20 none
       ∧ ((25 : Int) : ℚ) ≤ hW.evalGapCp) :=
  ⟨⟨evaluateCandidate_pendingW,
    (quality_floor.1 (List String) rulesW cfgW cpWW mateWW pvWW pendingW nlW
      evaluateCandidate_pendingW).1⟩,
   ⟨by rw [analyzeHabits_positionsH]; exact List.mem_singleton.mpr rfl,
    quality_floor.2 (List String) rulesW orcH true positionsH 5 50 25 20 none
      hW (by rw [analyzeHabits_positionsH]; exact List.mem_singleton.mpr rfl)⟩⟩

/-- C8: habit score formula.  Every `HabitInaccuracy` produced by
`analyze_habits` has `score = games-with-this-move × gap / 100`, the gap
being best-move eval − player-move eval from the player's perspective. -/
theorem habit_score_formula :
    ∀ (B : Type) (rules : ChessRules B) (orc : HabitsOracles B) (pc : Bool)
      (allPositions : List (String × ExplorerData))
      (minGames maxPositions : Nat) (g : Int) (depth : Nat)
      (evalCache : Option EvalStore),
    ∀ h ∈ analyzeHabits rules orc pc allPositions minGames maxPositions g
      depth evalCache,
      h.score = (h.playerMoveGames : ℚ) * h.evalGapCp / 100
      ∧ h.evalGapCp = h.evalCp - h.playerEvalCp := by
  intro B rules orc pc allPositions minGames maxPositions g depth evalCache
    h hmem
  have hs := analyzeHabits_sound rules orc pc allPositions minGames
    maxPositions g depth evalCache h hmem
  exact ⟨hs.2.2, hs.2.1⟩

/-- Witness for C8 at spec scenario 5: move played 20 times, gap 60 cp,
score 12.0. -/
theorem habit_score_formula_witness :
    (hW ∈ analyzeHabits rulesW orcH true positionsH 5 50 25 20 none
     ∧ hW.playerMoveGames = 20 ∧ hW.evalGapCp = 60 ∧ hW.score = 12)
    ∧ (hW.score = (hW.playerMoveGames : ℚ) * hW.evalGapCp / 100
       ∧ hW.evalGapCp = hW.evalCp - hW.playerEvalCp) :=
  ⟨⟨by rw [analyzeHabits_positionsH]; exact List.mem_singleton.mpr rfl,
    rfl, rfl, rfl⟩,
   habit_score_formula (List String) rulesW orcH true positionsH 5 50 25 20
     none hW (by rw [analyzeHabits_positionsH]; exact List.mem_singleton.mpr rfl)⟩

end MySecond
